import Mathlib

/-!
# Verification of the `rust-hex` codec (`src/lib.rs`)

Shallow embedding of the hex encode/decode engine. Byte sequences are
`List Nat` whose elements denote `u8` values (`< 256`); hex strings are the
lists of ASCII code points of their characters. Fallible Rust functions
returning `Result<_, FromHexError>` become `Except FromHexError _`; functions
that write through a `&mut [u8]` buffer return the buffer's final contents.
-/

set_option maxRecDepth 16384

namespace RustHex

/-- `FromHexError` (from `src/error.rs` via `pub use crate::error::FromHexError`).
The `c: char` payload is kept as the character's code point (the Rust code
builds it as `byte as char`, so for `u8` input it is exactly the byte). -/
inductive FromHexError where
  | InvalidHexCharacter (c : Nat) (index : Nat)
  | OddLength
  | InvalidStringLength
deriving DecidableEq, Repr

deriving instance DecidableEq for Except

/-- `const HEX_CHARS_LOWER: &[u8; 16] = b"0123456789abcdef";` -/
def HEX_CHARS_LOWER : List Nat :=
  [48, 49, 50, 51, 52, 53, 54, 55, 56, 57, 97, 98, 99, 100, 101, 102]

/-- `const HEX_CHARS_UPPER: &[u8; 16] = b"0123456789ABCDEF";` -/
def HEX_CHARS_UPPER : List Nat :=
  [48, 49, 50, 51, 52, 53, 54, 55, 56, 57, 65, 66, 67, 68, 69, 70]

/-- `const __: u8 = u8::MAX;` — the sentinel entry of the decode table. -/
def __ : Nat := 255

/-- `static DECODE_TABLE: [u8; 256]` — lookup table for ascii to hex decoding,
transcribed row for row from the source. -/
def DECODE_TABLE : List Nat :=
  [__, __, __, __, __, __, __, __, __, __, __, __, __, __, __, __, -- 0
   __, __, __, __, __, __, __, __, __, __, __, __, __, __, __, __, -- 1
   __, __, __, __, __, __, __, __, __, __, __, __, __, __, __, __, -- 2
    0,  1,  2,  3,  4,  5,  6,  7,  8,  9, __, __, __, __, __, __, -- 3
   __, 10, 11, 12, 13, 14, 15, __, __, __, __, __, __, __, __, __, -- 4
   __, __, __, __, __, __, __, __, __, __, __, __, __, __, __, __, -- 5
   __, 10, 11, 12, 13, 14, 15, __, __, __, __, __, __, __, __, __, -- 6
   __, __, __, __, __, __, __, __, __, __, __, __, __, __, __, __, -- 7
   __, __, __, __, __, __, __, __, __, __, __, __, __, __, __, __, -- 8
   __, __, __, __, __, __, __, __, __, __, __, __, __, __, __, __, -- 9
   __, __, __, __, __, __, __, __, __, __, __, __, __, __, __, __, -- a
   __, __, __, __, __, __, __, __, __, __, __, __, __, __, __, __, -- b
   __, __, __, __, __, __, __, __, __, __, __, __, __, __, __, __, -- c
   __, __, __, __, __, __, __, __, __, __, __, __, __, __, __, __, -- d
   __, __, __, __, __, __, __, __, __, __, __, __, __, __, __, __, -- e
   __, __, __, __, __, __, __, __, __, __, __, __, __, __, __, __] -- f

/-- `DECODE_TABLE[b as usize]` for a byte `b`. A `u8` index is always in
range, so the `getD` default is never reached for inputs that denote bytes;
it is set to the sentinel so that out-of-range values stay invalid. -/
def decTab (b : Nat) : Nat := DECODE_TABLE.getD b 255

/-- `fn val(bytes: &[u8], idx: usize) -> Result<u8, FromHexError>`.
It is only ever called on an exact chunk of two bytes, passed here as
`b0 = bytes[0]`, `b1 = bytes[1]`. -/
def val (b0 b1 : Nat) (idx : Nat) : Except FromHexError Nat :=
  let upper := decTab b0
  let lower := decTab b1
  if upper = 255 then
    .error (.InvalidHexCharacter b0 idx)
  else if lower = 255 then
    .error (.InvalidHexCharacter b1 (idx + 1))
  else
    .ok ((upper <<< 4) ||| lower)

/-- The loop of `decode_to_slice`:
`for (i, (data, byte)) in data.chunks_exact(2).zip(out).enumerate() { *byte = val(data, 2 * i)?; }`.
`i` is the enumeration counter; the returned list is the final contents of
`out` (positions the zip does not reach keep their previous contents, as
`chunks_exact` drops a trailing odd byte and `zip` stops at the shorter side). -/
def decodeLoop : List Nat → List Nat → Nat → Except FromHexError (List Nat)
  | d0 :: d1 :: ds, _o :: os, i =>
    match val d0 d1 (2 * i) with
    | .error e => .error e
    | .ok b => (decodeLoop ds os (i + 1)).map (fun rest => b :: rest)
  | _, out, _ => .ok out

/-- `pub fn decode_to_slice<T: AsRef<[u8]>>(data: T, out: &mut [u8]) -> Result<(), FromHexError>`;
on success the result carries the final contents of `out`. -/
def decode_to_slice (data out : List Nat) : Except FromHexError (List Nat) :=
  if data.length % 2 ≠ 0 then
    .error .OddLength
  else if data.length / 2 ≠ out.length then
    .error .InvalidStringLength
  else
    decodeLoop data out 0

/-- `impl FromHex for Vec<u8>`: `fn from_hex` — checks evenness, allocates
`vec![0; hex.len() / 2]` and delegates to `decode_to_slice`.
`pub fn decode` is exactly `FromHex::from_hex` at `Vec<u8>`. -/
def decode (data : List Nat) : Except FromHexError (List Nat) :=
  if data.length % 2 ≠ 0 then
    .error .OddLength
  else
    decode_to_slice data (List.replicate (data.length / 2) 0)

/-- `impl<const N: usize> FromHex for [u8; N]`: `fn from_hex` — allocates
`[0_u8; N]` and delegates to `decode_to_slice`. -/
def from_hex_array (N : Nat) (hex : List Nat) : Except FromHexError (List Nat) :=
  decode_to_slice hex (List.replicate N 0)

/-- `fn byte2hex(byte: u8, table: &[u8; 16]) -> (u8, u8)`. -/
def byte2hex (byte : Nat) (table : List Nat) : Nat × Nat :=
  let high := table.getD ((byte &&& 0xf0) >>> 4) 0
  let low := table.getD (byte &&& 0x0f) 0
  (high, low)

/-- The loop of `encode_to_slice_inner`:
`for (byte, output) in input.iter().zip(output.chunks_exact_mut(2)) { output[0] = high; output[1] = low; }`.
The returned list is the final contents of `output`; positions the zip does
not reach (input exhausted, or fewer than two output slots left) keep their
previous contents. -/
def encodeLoop (table : List Nat) : List Nat → List Nat → List Nat
  | b :: bs, _o0 :: _o1 :: os =>
    (byte2hex b table).1 :: (byte2hex b table).2 :: encodeLoop table bs os
  | _, out => out

/-- `fn encode_to_slice_inner(input, output, table) -> Result<(), FromHexError>`;
on success the result carries the final contents of `output`. -/
def encode_to_slice_inner (input output table : List Nat) :
    Except FromHexError (List Nat) :=
  if input.length * 2 ≠ output.length then
    .error .InvalidStringLength
  else
    .ok (encodeLoop table input output)

/-- `pub fn encode_to_slice` — delegates to `encode_to_slice_inner` with
`HEX_CHARS_LOWER` (the `&mut str` view it returns is the same buffer). -/
def encode_to_slice (input output : List Nat) : Except FromHexError (List Nat) :=
  encode_to_slice_inner input output HEX_CHARS_LOWER

/-- `pub fn encode_to_slice_upper` — same with `HEX_CHARS_UPPER`. -/
def encode_to_slice_upper (input output : List Nat) : Except FromHexError (List Nat) :=
  encode_to_slice_inner input output HEX_CHARS_UPPER

/-- `pub fn encode<T: AsRef<[u8]>>(data: T) -> String` — allocates
`vec![0; data.len() * 2]`, fills it through `encode_to_slice` and unwraps.
The `.unwrap()` can never panic (the buffer length matches by construction);
the `.error` arm models that unreachable case. -/
def encode (data : List Nat) : List Nat :=
  match encode_to_slice data (List.replicate (data.length * 2) 0) with
  | .ok out => out
  | .error _ => []

/-- `pub fn encode_upper<T: AsRef<[u8]>>(data: T) -> String` — same as
`encode` with the uppercase table. -/
def encode_upper (data : List Nat) : List Nat :=
  match encode_to_slice_upper data (List.replicate (data.length * 2) 0) with
  | .ok out => out
  | .error _ => []

/-- The character stream of `BytesToHexChars` (`impl Iterator ... fn next`):
`inner` is the not-yet-consumed suffix of the source and `pend` the buffered
low-nibble character (the iterator's `next: Option<char>` field). Each
unfolding step is one call of `next`:
either emit the pending character, or consume a byte, emit its high-nibble
character and buffer the low-nibble one. -/
def bytesToHexChars (table : List Nat) : List Nat → Option Nat → List Nat
  | inner, some c => c :: bytesToHexChars table inner none
  | [], none => []
  | b :: bs, none =>
    table.getD (b >>> 4) 0 :: bytesToHexChars table bs (some (table.getD (b &&& 0x0F) 0))
termination_by inner pend => 2 * inner.length + (if pend.isSome then 1 else 0)
decreasing_by all_goals (simp <;> omega)

/-- `fn encode_to_iter<T: FromIterator<char>>(table, source) -> T` — collects
`BytesToHexChars::new(source, table)` (which starts with `next: None`). -/
def encode_to_iter (table source : List Nat) : List Nat :=
  bytesToHexChars table source none

/-- ASCII uppercasing of a code point, as in `u8::to_ascii_uppercase`. -/
def asciiUpper (c : Nat) : Nat := if 97 ≤ c ∧ c ≤ 122 then c - 32 else c

/-- ASCII lowercasing of a code point, as in `u8::to_ascii_lowercase`. -/
def asciiLower (c : Nat) : Nat := if 65 ≤ c ∧ c ≤ 90 then c + 32 else c

/-- A code point is an ASCII hex digit (`0-9`, `a-f`, `A-F`). -/
def isHexDigit (c : Nat) : Prop :=
  (48 ≤ c ∧ c ≤ 57) ∨ (97 ≤ c ∧ c ≤ 102) ∨ (65 ≤ c ∧ c ≤ 70)

instance (c : Nat) : Decidable (isHexDigit c) := by
  unfold isHexDigit; infer_instance

/-! ## Helper functions used only in proofs -/

/-- The two hex characters a byte contributes to the output, in order. -/
def enc2 (table : List Nat) (b : Nat) : List Nat :=
  [(byte2hex b table).1, (byte2hex b table).2]

/-- The bytes a fully valid even-length character list decodes to. -/
def decodePairs : List Nat → List Nat
  | d0 :: d1 :: ds => ((decTab d0) <<< 4 ||| decTab d1) :: decodePairs ds
  | _ => []

/-! ## Sanity checks against the crate's own doc examples and tests -/

lemma encode_hello : encode [72, 101, 108, 108, 111] =
    [52, 56, 54, 53, 54, 99, 54, 99, 54, 102] := by decide

lemma decode_abc_odd : decode [97, 98, 99] = .error .OddLength := by decide

/-! ## Table and bit-level facts -/

lemma decTab_hexLower (n : Nat) (h : n < 16) : decTab (HEX_CHARS_LOWER.getD n 0) = n := by
  revert n h
  decide

lemma decTab_hexUpper (n : Nat) (h : n < 16) : decTab (HEX_CHARS_UPPER.getD n 0) = n := by
  revert n h
  decide

lemma hexLower_lt_256 (n : Nat) (h : n < 16) : HEX_CHARS_LOWER.getD n 0 < 256 := by
  revert n h
  decide

lemma hexUpper_lt_256 (n : Nat) (h : n < 16) : HEX_CHARS_UPPER.getD n 0 < 256 := by
  revert n h
  decide

lemma and240_shr_lt (b : Nat) : (b &&& 240) >>> 4 < 16 := by
  have h : b &&& 240 ≤ 240 := Nat.and_le_right
  have h2 : (b &&& 240) >>> 4 = (b &&& 240) / 16 := by
    rw [Nat.shiftRight_eq_div_pow]
  omega

lemma and15_lt (b : Nat) : b &&& 15 < 16 :=
  Nat.lt_succ_of_le Nat.and_le_right

lemma recompose_byte (b : Nat) (h : b < 256) :
    (((b &&& 240) >>> 4) <<< 4) ||| (b &&& 15) = b := by
  revert b h
  decide

lemma shr4_eq_and240_shr4 (b : Nat) (h : b < 256) : b >>> 4 = (b &&& 240) >>> 4 := by
  revert b h
  decide

lemma nibble_split (x y : Nat) (hx : x < 16) (hy : y < 16) :
    ((x <<< 4 ||| y) &&& 240) >>> 4 = x ∧ (x <<< 4 ||| y) &&& 15 = y := by
  have key : ∀ a, a < 16 → ∀ b, b < 16 →
      ((a <<< 4 ||| b) &&& 240) >>> 4 = a ∧ (a <<< 4 ||| b) &&& 15 = b := by decide
  exact key x hx y hy

lemma decTab_of_ge_256 (c : Nat) (h : 256 ≤ c) : decTab c = 255 := by
  have hlen : DECODE_TABLE.length = 256 := by decide
  unfold decTab
  rw [List.getD_eq_default]
  omega

lemma decTab_lt_256_of_valid (c : Nat) (h : decTab c ≠ 255) : c < 256 := by
  by_contra hc
  exact h (decTab_of_ge_256 c (by omega))

lemma decTab_lt_16_of_valid (c : Nat) (h : decTab c ≠ 255) : decTab c < 16 := by
  have key : ∀ a, a < 256 → decTab a ≠ 255 → decTab a < 16 := by decide
  exact key c (decTab_lt_256_of_valid c h) h

lemma decTab_isHexDigit (c : Nat) : decTab c ≠ 255 ↔ isHexDigit c := by
  constructor
  · intro h
    have key : ∀ a, a < 256 → decTab a ≠ 255 → isHexDigit a := by decide
    exact key c (decTab_lt_256_of_valid c h) h
  · intro h
    have hc : c < 256 := by
      rcases h with h | h | h <;> omega
    have key : ∀ a, a < 256 → isHexDigit a → decTab a ≠ 255 := by decide
    exact key c hc h

lemma decTab_asciiUpper (c : Nat) (h : isHexDigit c) :
    decTab (asciiUpper c) = decTab c := by
  have hc : c < 256 := by
    rcases h with h | h | h <;> omega
  have key : ∀ a, a < 256 → isHexDigit a → decTab (asciiUpper a) = decTab a := by decide
  exact key c hc h

lemma decTab_asciiLower (c : Nat) (h : isHexDigit c) :
    decTab (asciiLower c) = decTab c := by
  have hc : c < 256 := by
    rcases h with h | h | h <;> omega
  have key : ∀ a, a < 256 → isHexDigit a → decTab (asciiLower a) = decTab a := by decide
  exact key c hc h

lemma hexLower_of_decTab (c : Nat) (h : decTab c ≠ 255) :
    HEX_CHARS_LOWER.getD (decTab c) 0 = asciiLower c := by
  have key : ∀ a, a < 256 → decTab a ≠ 255 →
      HEX_CHARS_LOWER.getD (decTab a) 0 = asciiLower a := by decide
  exact key c (decTab_lt_256_of_valid c h) h

/-! ## The encode loop -/

lemma encodeLoop_eq (table : List Nat) :
    ∀ (data out : List Nat), out.length = 2 * data.length →
      encodeLoop table data out = data.flatMap (enc2 table) := by
  intro data
  induction data with
  | nil =>
    intro out h
    have hout : out = [] := List.eq_nil_of_length_eq_zero (by simpa using h)
    subst hout
    simp [encodeLoop]
  | cons b bs ih =>
    intro out h
    match out with
    | [] => simp at h
    | [o0] => simp at h; omega
    | o0 :: o1 :: os =>
      simp only [List.length_cons] at h
      simp only [encodeLoop, List.flatMap_cons, enc2]
      rw [ih os (by omega)]
      rfl

lemma encode_to_slice_inner_ok (input output table : List Nat)
    (h : output.length = 2 * input.length) :
    encode_to_slice_inner input output table = .ok (input.flatMap (enc2 table)) := by
  unfold encode_to_slice_inner
  rw [if_neg (by omega)]
  exact congrArg Except.ok (encodeLoop_eq table input output h)

lemma encode_eq (data : List Nat) :
    encode data = data.flatMap (enc2 HEX_CHARS_LOWER) := by
  unfold encode encode_to_slice
  rw [encode_to_slice_inner_ok data _ HEX_CHARS_LOWER (by simp [List.length_replicate]; omega)]

lemma encode_upper_eq (data : List Nat) :
    encode_upper data = data.flatMap (enc2 HEX_CHARS_UPPER) := by
  unfold encode_upper encode_to_slice_upper
  rw [encode_to_slice_inner_ok data _ HEX_CHARS_UPPER (by simp [List.length_replicate]; omega)]

lemma flatMap_enc2_length (table data : List Nat) :
    (data.flatMap (enc2 table)).length = 2 * data.length := by
  induction data with
  | nil => simp
  | cons b bs ih => simp [List.flatMap_cons, enc2, ih]; omega

lemma encode_length (data : List Nat) : (encode data).length = 2 * data.length := by
  rw [encode_eq]
  exact flatMap_enc2_length HEX_CHARS_LOWER data

/-! ## The decode loop -/

lemma decodeLoop_ok (out : List Nat) :
    ∀ (data : List Nat) (i : Nat), data.length = 2 * out.length →
      (∀ c ∈ data, decTab c ≠ 255) →
      decodeLoop data out i = .ok (decodePairs data) := by
  induction out with
  | nil =>
    intro data i hlen _
    have hdata : data = [] := List.eq_nil_of_length_eq_zero (by simpa using hlen)
    subst hdata
    simp [decodeLoop, decodePairs]
  | cons o os ih =>
    intro data i hlen hval
    match data with
    | [] => simp at hlen
    | [d0] => simp at hlen; omega
    | d0 :: d1 :: ds =>
      have h0 : decTab d0 ≠ 255 := hval d0 (by simp)
      have h1 : decTab d1 ≠ 255 := hval d1 (by simp)
      simp only [decodeLoop, val]
      rw [if_neg h0, if_neg h1]
      simp only [List.length_cons] at hlen
      rw [ih ds (i + 1) (by omega) (fun c hc => hval c (by simp [hc]))]
      simp [decodePairs, Except.map]

lemma decodeLoop_err (out : List Nat) :
    ∀ (data : List Nat) (i j : Nat), data.length = 2 * out.length →
      j < data.length → decTab (data.getD j 0) = 255 →
      (∀ k, k < j → decTab (data.getD k 0) ≠ 255) →
      decodeLoop data out i =
        .error (.InvalidHexCharacter (data.getD j 0) (2 * i + j)) := by
  induction out with
  | nil =>
    intro data i j hlen hj _ _
    have hdata : data = [] := List.eq_nil_of_length_eq_zero (by simpa using hlen)
    subst hdata
    simp at hj
  | cons o os ih =>
    intro data i j hlen hj hbad hgood
    match data with
    | [] => simp at hlen
    | [d0] => simp at hlen; omega
    | d0 :: d1 :: ds =>
      simp only [List.length_cons] at hlen
      match j with
      | 0 =>
        simp only [List.getD_cons_zero] at hbad ⊢
        simp only [decodeLoop, val]
        rw [if_pos hbad]
        simp
      | 1 =>
        have h0 : decTab d0 ≠ 255 := by
          have := hgood 0 (by omega)
          simpa using this
        simp only [List.getD_cons_succ, List.getD_cons_zero] at hbad ⊢
        simp only [decodeLoop, val]
        rw [if_neg h0, if_pos hbad]
      | j' + 2 =>
        have h0 : decTab d0 ≠ 255 := by
          have := hgood 0 (by omega)
          simpa using this
        have h1 : decTab d1 ≠ 255 := by
          have := hgood 1 (by omega)
          simpa using this
        simp only [List.getD_cons_succ] at hbad ⊢
        simp only [decodeLoop, val]
        rw [if_neg h0, if_neg h1]
        have hrec := ih ds (i + 1) j' (by omega)
          (by simpa using hj) hbad
          (fun k hk => by
            have := hgood (k + 2) (by omega)
            simpa using this)
        rw [hrec]
        simp only [Except.map]
        have : 2 * (i + 1) + j' = 2 * i + (j' + 2) := by omega
        rw [this]

lemma decodeLoop_error_shape (out : List Nat) :
    ∀ (data : List Nat) (i : Nat) (e : FromHexError),
      decodeLoop data out i = .error e →
      ∃ c idx, e = .InvalidHexCharacter c idx := by
  induction out with
  | nil =>
    intro data i e h
    match data with
    | [] => simp [decodeLoop] at h
    | [d0] => simp [decodeLoop] at h
    | d0 :: d1 :: ds => simp [decodeLoop] at h
  | cons o os ih =>
    intro data i e h
    match data with
    | [] => simp [decodeLoop] at h
    | [d0] => simp [decodeLoop] at h
    | d0 :: d1 :: ds =>
      simp only [decodeLoop, val] at h
      by_cases h0 : decTab d0 = 255
      · rw [if_pos h0] at h
        exact ⟨d0, 2 * i, by injection h with h; exact h.symm⟩
      · rw [if_neg h0] at h
        by_cases h1 : decTab d1 = 255
        · rw [if_pos h1] at h
          exact ⟨d1, 2 * i + 1, by injection h with h; exact h.symm⟩
        · rw [if_neg h1] at h
          cases hrec : decodeLoop ds os (i + 1) with
          | ok res => rw [hrec] at h; simp [Except.map] at h
          | error e' =>
            rw [hrec] at h
            simp only [Except.map] at h
            injection h with h
            subst h
            exact ih ds (i + 1) e' hrec

lemma decodeLoop_ok_chars (out : List Nat) :
    ∀ (data : List Nat) (i : Nat) (res : List Nat),
      data.length = 2 * out.length →
      decodeLoop data out i = .ok res →
      (∀ c ∈ data, decTab c ≠ 255) ∧ res = decodePairs data := by
  induction out with
  | nil =>
    intro data i res hlen h
    have hdata : data = [] := List.eq_nil_of_length_eq_zero (by simpa using hlen)
    subst hdata
    simp only [decodeLoop] at h
    injection h with h
    subst h
    simp [decodePairs]
  | cons o os ih =>
    intro data i res hlen h
    match data with
    | [] => simp at hlen
    | [d0] => simp at hlen; omega
    | d0 :: d1 :: ds =>
      simp only [List.length_cons] at hlen
      simp only [decodeLoop, val] at h
      by_cases h0 : decTab d0 = 255
      · rw [if_pos h0] at h; exact absurd h (by simp)
      · rw [if_neg h0] at h
        by_cases h1 : decTab d1 = 255
        · rw [if_pos h1] at h; exact absurd h (by simp)
        · rw [if_neg h1] at h
          cases hrec : decodeLoop ds os (i + 1) with
          | error e' => rw [hrec] at h; simp [Except.map] at h
          | ok rest =>
            rw [hrec] at h
            simp only [Except.map] at h
            injection h with h
            obtain ⟨hvalid, hrest⟩ := ih ds (i + 1) rest (by omega) hrec
            refine ⟨?_, ?_⟩
            · intro c hc
              simp only [List.mem_cons] at hc
              rcases hc with rfl | rfl | hc
              · exact h0
              · exact h1
              · exact hvalid c hc
            · rw [← h, hrest, decodePairs]

/-! ## Round-trip and congruence helpers -/

lemma enc2_lower_valid (b : Nat) : ∀ c ∈ enc2 HEX_CHARS_LOWER b, decTab c ≠ 255 := by
  intro c hc
  simp only [enc2, byte2hex, List.mem_cons, List.not_mem_nil, or_false] at hc
  rcases hc with rfl | rfl
  · rw [decTab_hexLower _ (and240_shr_lt b)]
    have := and240_shr_lt b
    omega
  · rw [decTab_hexLower _ (and15_lt b)]
    have := and15_lt b
    omega

lemma flatMap_enc2_lower_valid (data : List Nat) :
    ∀ c ∈ data.flatMap (enc2 HEX_CHARS_LOWER), decTab c ≠ 255 := by
  intro c hc
  rw [List.mem_flatMap] at hc
  obtain ⟨b, _, hcb⟩ := hc
  exact enc2_lower_valid b c hcb

lemma decodePairs_enc2_lower (data : List Nat) (h : ∀ b ∈ data, b < 256) :
    decodePairs (data.flatMap (enc2 HEX_CHARS_LOWER)) = data := by
  induction data with
  | nil => simp [decodePairs]
  | cons b bs ih =>
    have hb : b < 256 := h b (by simp)
    have hstep : (b :: bs).flatMap (enc2 HEX_CHARS_LOWER)
        = (byte2hex b HEX_CHARS_LOWER).1 :: (byte2hex b HEX_CHARS_LOWER).2
          :: bs.flatMap (enc2 HEX_CHARS_LOWER) := by
      rw [List.flatMap_cons]
      rfl
    rw [hstep]
    simp only [decodePairs, byte2hex]
    rw [decTab_hexLower _ (and240_shr_lt b), decTab_hexLower _ (and15_lt b),
      recompose_byte b hb, ih (fun x hx => h x (by simp [hx]))]

lemma decode_to_slice_eq_loop (data out : List Nat) (he : data.length % 2 = 0)
    (hl : out.length = data.length / 2) :
    decode_to_slice data out = decodeLoop data out 0 := by
  unfold decode_to_slice
  rw [if_neg (by omega), if_neg (by omega)]

lemma decode_eq_loop (data : List Nat) (he : data.length % 2 = 0) :
    decode data = decodeLoop data (List.replicate (data.length / 2) 0) 0 := by
  unfold decode
  rw [if_neg (by omega)]
  exact decode_to_slice_eq_loop data _ he (by simp)

lemma decodePairs_map (f : Nat → Nat) (hf : ∀ c, isHexDigit c → decTab (f c) = decTab c) :
    ∀ data : List Nat, (∀ c ∈ data, isHexDigit c) →
      decodePairs (data.map f) = decodePairs data
  | [], _ => by simp [decodePairs]
  | [d], _ => by simp [decodePairs]
  | d0 :: d1 :: ds, hvalid => by
    have h0 := hvalid d0 (by simp)
    have h1 := hvalid d1 (by simp)
    simp only [List.map_cons, decodePairs]
    rw [hf d0 h0, hf d1 h1,
      decodePairs_map f hf ds (fun c hc => hvalid c (by simp [hc]))]

lemma flatMap_decodePairs :
    ∀ h : List Nat, (∀ c ∈ h, decTab c ≠ 255) → h.length % 2 = 0 →
      (decodePairs h).flatMap (enc2 HEX_CHARS_LOWER) = h.map asciiLower
  | [], _, _ => by simp [decodePairs]
  | [c], _, heven => by simp at heven
  | c0 :: c1 :: cs, hvalid, heven => by
    have h0 : decTab c0 ≠ 255 := hvalid c0 (by simp)
    have h1 : decTab c1 ≠ 255 := hvalid c1 (by simp)
    obtain ⟨hhi, hlo⟩ :=
      nibble_split (decTab c0) (decTab c1) (decTab_lt_16_of_valid c0 h0)
        (decTab_lt_16_of_valid c1 h1)
    simp only [decodePairs, List.flatMap_cons, List.map_cons, enc2, byte2hex]
    rw [hhi, hlo, hexLower_of_decTab c0 h0, hexLower_of_decTab c1 h1,
      flatMap_decodePairs cs (fun c hc => hvalid c (by simp [hc]))
        (by simp only [List.length_cons] at heven; omega)]
    rfl

lemma bytesToHexChars_none (table : List Nat) :
    ∀ data : List Nat, bytesToHexChars table data none =
      data.flatMap (fun b => [table.getD (b >>> 4) 0, table.getD (b &&& 0x0F) 0]) := by
  intro data
  induction data with
  | nil => simp [bytesToHexChars]
  | cons b bs ih => simp [bytesToHexChars, ih, List.flatMap_cons]

lemma flatMap_iter_eq_enc2 (table data : List Nat) (h : ∀ b ∈ data, b < 256) :
    data.flatMap (fun b => [table.getD (b >>> 4) 0, table.getD (b &&& 0x0F) 0]) =
    data.flatMap (enc2 table) := by
  induction data with
  | nil => simp
  | cons b bs ih =>
    simp only [List.flatMap_cons, enc2, byte2hex]
    rw [shr4_eq_and240_shr4 b (h b (by simp)), ih (fun x hx => h x (by simp [hx]))]

lemma flatMap_enc2_getD (table data : List Nat) :
    ∀ i, i < data.length →
      (data.flatMap (enc2 table)).getD (2 * i) 0 = (byte2hex (data.getD i 0) table).1 ∧
      (data.flatMap (enc2 table)).getD (2 * i + 1) 0 = (byte2hex (data.getD i 0) table).2 := by
  induction data with
  | nil => intro i hi; simp at hi
  | cons b bs ih =>
    have hstep : (b :: bs).flatMap (enc2 table)
        = (byte2hex b table).1 :: (byte2hex b table).2 :: bs.flatMap (enc2 table) := by
      rw [List.flatMap_cons]
      rfl
    intro i hi
    match i with
    | 0 => rw [hstep]; simp
    | i' + 1 =>
      have e1 : 2 * (i' + 1) = 2 * i' + 1 + 1 := by omega
      rw [hstep, e1]
      simp only [List.getD_cons_succ]
      exact ih i' (by simp only [List.length_cons] at hi; omega)

lemma decode_map_congr (f : Nat → Nat) (hf : ∀ c, isHexDigit c → decTab (f c) = decTab c)
    (h : List Nat) (hh : ∀ c ∈ h, isHexDigit c) :
    decode (h.map f) = decode h := by
  by_cases he : h.length % 2 = 0
  · rw [decode_eq_loop _ (by simp only [List.length_map]; omega),
      decode_eq_loop _ he]
    have hvalid : ∀ c ∈ h, decTab c ≠ 255 :=
      fun c hc => (decTab_isHexDigit c).mpr (hh c hc)
    have hvalid' : ∀ c ∈ h.map f, decTab c ≠ 255 := by
      intro c hc
      rw [List.mem_map] at hc
      obtain ⟨a, ha, rfl⟩ := hc
      rw [hf a (hh a ha)]
      exact hvalid a ha
    rw [decodeLoop_ok _ _ 0 (by simp only [List.length_map, List.length_replicate]; omega)
        hvalid',
      decodeLoop_ok _ _ 0 (by simp only [List.length_replicate]; omega) hvalid,
      decodePairs_map f hf h hh]
  · unfold decode
    rw [if_pos (by simp only [List.length_map]; omega), if_pos (by omega)]

/-! ## Claim theorems -/

/-- C1: For every byte sequence `b`, decoding the lowercase hex encoding of
`b` yields exactly `b`: `decode(encode(b)) == Ok(b)`. -/
theorem decode_encode_roundtrip (data : List Nat) (h : ∀ b ∈ data, b < 256) :
    decode (encode data) = .ok data := by
  rw [encode_eq]
  have hlen := flatMap_enc2_length HEX_CHARS_LOWER data
  rw [decode_eq_loop _ (by omega)]
  rw [decodeLoop_ok _ _ 0 (by simp only [List.length_replicate]; omega)
    (flatMap_enc2_lower_valid data)]
  rw [decodePairs_enc2_lower data h]

theorem decode_encode_roundtrip_instance :
    (∀ b ∈ [0, 103, 171, 255], b < 256) ∧
    decode (encode [0, 103, 171, 255]) = .ok [0, 103, 171, 255] :=
  ⟨by decide, decode_encode_roundtrip [0, 103, 171, 255] (by decide)⟩

/-- C2: For every byte sequence `b`, the string returned by `encode(b)` has
length exactly `2 × length(b)`; in particular `encode` of the empty sequence
is the empty string. -/
theorem encode_length_law :
    (∀ data : List Nat, (encode data).length = 2 * data.length) ∧ encode [] = [] :=
  ⟨encode_length, by decide⟩

/-- C3: `decode_to_slice(data, out)` returns `OddLength` exactly when `data`
has odd length (before all other validation, so an odd-length input never
yields another error), and for even-length data it returns
`InvalidStringLength` exactly when `out.length ≠ data.length / 2`, before any
character is examined (the equivalences hold for arbitrary `data` contents). -/
theorem decode_to_slice_length_errors (data out : List Nat) :
    (decode_to_slice data out = .error .OddLength ↔ data.length % 2 = 1) ∧
    (data.length % 2 = 0 →
      (decode_to_slice data out = .error .InvalidStringLength ↔
        out.length ≠ data.length / 2)) := by
  by_cases hodd : data.length % 2 = 0
  · have heven_form : decode_to_slice data out =
        if data.length / 2 ≠ out.length then .error .InvalidStringLength
        else decodeLoop data out 0 := by
      unfold decode_to_slice
      rw [if_neg (by omega)]
    constructor
    · rw [heven_form]
      constructor
      · intro hctr
        by_cases hl : data.length / 2 ≠ out.length
        · rw [if_pos hl] at hctr
          exact absurd hctr (by simp)
        · rw [if_neg hl] at hctr
          obtain ⟨c, idx, he⟩ := decodeLoop_error_shape out data 0 _ hctr
          simp at he
      · intro h1
        omega
    · intro _
      rw [heven_form]
      constructor
      · intro hctr
        by_cases hl : data.length / 2 ≠ out.length
        · omega
        · rw [if_neg hl] at hctr
          obtain ⟨c, idx, he⟩ := decodeLoop_error_shape out data 0 _ hctr
          simp at he
      · intro hne
        rw [if_pos (by omega)]
  · have hform : decode_to_slice data out = .error .OddLength := by
      unfold decode_to_slice
      rw [if_pos (by omega)]
    refine ⟨?_, ?_⟩
    · rw [hform]
      simp
      omega
    · intro h0
      omega

theorem decode_to_slice_length_errors_instance :
    decode_to_slice [54, 54, 97] [0] = .error .OddLength ∧
    decode_to_slice [54, 54] [] = .error .InvalidStringLength :=
  ⟨(decode_to_slice_length_errors [54, 54, 97] [0]).1.mpr (by decide),
   ((decode_to_slice_length_errors [54, 54] []).2 (by decide)).mpr (by decide)⟩

/-- C4: When decoding an even-length input whose buffer length matches, pairs
are scanned left to right and the first invalid byte encountered is reported
as `InvalidHexCharacter` carrying that character and its 0-based index in the
original input (within a pair the first character is checked before the
second, so the reported index is the least invalid position); in particular
`decode("66ag")` fails with `InvalidHexCharacter{character:'g', index:3}`. -/
theorem decode_first_invalid_char :
    (∀ (data out : List Nat) (j : Nat),
        data.length % 2 = 0 → out.length = data.length / 2 →
        j < data.length → decTab (data.getD j 0) = 255 →
        (∀ k, k < j → decTab (data.getD k 0) ≠ 255) →
        decode_to_slice data out =
          .error (.InvalidHexCharacter (data.getD j 0) j)) ∧
    decode [54, 54, 97, 103] = .error (.InvalidHexCharacter 103 3) := by
  constructor
  · intro data out j he hl hj hbad hgood
    rw [decode_to_slice_eq_loop data out he (by omega)]
    have := decodeLoop_err out data 0 j (by omega) hj hbad hgood
    simpa using this
  · decide

theorem decode_first_invalid_char_instance :
    decode_to_slice [54, 54, 97, 103] [0, 0] =
      .error (.InvalidHexCharacter 103 3) :=
  decode_first_invalid_char.1 [54, 54, 97, 103] [0, 0] 3 (by decide) (by decide)
    (by decide) (by decide) (by decide)

/-- C5: `encode_to_slice(input, output)` fails with `InvalidStringLength`
exactly when `output.length ≠ input.length * 2`; when the lengths match it
succeeds and writes, for each input byte at position `i`, the high-nibble hex
character to `output[2i]` and the low-nibble one to `output[2i+1]`; encoding
the 4-byte input `"kiwi"` into an 8-byte buffer yields `"6b697769"` while a
10-byte buffer fails. -/
theorem encode_to_slice_contract :
    (∀ input output : List Nat,
        encode_to_slice input output = .error .InvalidStringLength ↔
          output.length ≠ input.length * 2) ∧
    (∀ input output : List Nat, output.length = input.length * 2 →
        encode_to_slice input output = .ok (input.flatMap (enc2 HEX_CHARS_LOWER)) ∧
        ∀ i, i < input.length →
          (input.flatMap (enc2 HEX_CHARS_LOWER)).getD (2 * i) 0 =
              HEX_CHARS_LOWER.getD (((input.getD i 0) &&& 0xf0) >>> 4) 0 ∧
            (input.flatMap (enc2 HEX_CHARS_LOWER)).getD (2 * i + 1) 0 =
              HEX_CHARS_LOWER.getD ((input.getD i 0) &&& 0x0f) 0) ∧
    encode_to_slice [107, 105, 119, 105] (List.replicate 8 0) =
      .ok [54, 98, 54, 57, 55, 55, 54, 57] ∧
    encode_to_slice [107, 105, 119, 105] (List.replicate 10 0) =
      .error .InvalidStringLength := by
  refine ⟨?_, ?_, by decide, by decide⟩
  · intro input output
    constructor
    · intro hctr
      by_cases hl : output.length = input.length * 2
      · unfold encode_to_slice encode_to_slice_inner at hctr
        rw [if_neg (by omega)] at hctr
        simp at hctr
      · omega
    · intro hne
      unfold encode_to_slice encode_to_slice_inner
      rw [if_pos (by omega)]
  · intro input output hlen
    refine ⟨encode_to_slice_inner_ok input output HEX_CHARS_LOWER (by omega), ?_⟩
    intro i hi
    exact flatMap_enc2_getD HEX_CHARS_LOWER input i hi

theorem encode_to_slice_contract_instance :
    encode_to_slice [107] [0, 0] = .ok [54, 98] :=
  (encode_to_slice_contract.2.1 [107] [0, 0] (by decide)).1

/-- C6: The 256-entry decode table maps every ASCII hex digit byte to its
numeric nibble value in 0–15 (`'a'-'f'` and `'A'-'F'` to the same values
10–15), and maps every other byte value 0–255 to the sentinel 255, distinct
from every valid nibble. -/
theorem decode_table_contract :
    (∀ c, 48 ≤ c → c ≤ 57 → decTab c = c - 48) ∧
    (∀ c, 97 ≤ c → c ≤ 102 → decTab c = c - 87) ∧
    (∀ c, 65 ≤ c → c ≤ 70 → decTab c = c - 55) ∧
    (∀ c, c ≤ 255 → ¬ isHexDigit c → decTab c = 255) ∧
    (∀ n, n ≤ 15 → 255 ≠ n) := by
  refine ⟨?_, ?_, ?_, ?_, ?_⟩
  · intro c h1 h2
    have key : ∀ a, a < 58 → 48 ≤ a → decTab a = a - 48 := by decide
    exact key c (by omega) h1
  · intro c h1 h2
    have key : ∀ a, a < 103 → 97 ≤ a → decTab a = a - 87 := by decide
    exact key c (by omega) h1
  · intro c h1 h2
    have key : ∀ a, a < 71 → 65 ≤ a → decTab a = a - 55 := by decide
    exact key c (by omega) h1
  · intro c h1 h2
    have key : ∀ a, a < 256 → ¬ isHexDigit a → decTab a = 255 := by decide
    exact key c (by omega) h2
  · intro n h1
    omega

theorem decode_table_contract_instance :
    decTab 48 = 0 ∧ decTab 102 = 15 ∧ decTab 70 = 15 ∧ decTab 103 = 255 :=
  ⟨decode_table_contract.1 48 (by decide) (by decide),
   decode_table_contract.2.1 102 (by decide) (by decide),
   decode_table_contract.2.2.1 70 (by decide) (by decide),
   decode_table_contract.2.2.2.1 103 (by decide) (by decide)⟩

/-- C7: For every byte string `h` consisting only of hex digit characters,
decoding is case-insensitive character by character: `decode h`,
`decode (uppercase h)` and `decode (lowercase h)` all return the same result
(mixed case within one string or one pair included). -/
theorem decode_case_insensitive (h : List Nat) (hh : ∀ c ∈ h, isHexDigit c) :
    decode (h.map asciiUpper) = decode h ∧ decode (h.map asciiLower) = decode h :=
  ⟨decode_map_congr asciiUpper decTab_asciiUpper h hh,
   decode_map_congr asciiLower decTab_asciiLower h hh⟩

theorem decode_case_insensitive_instance :
    (∀ c ∈ [102, 57, 66, 52, 99, 97], isHexDigit c) ∧
    (decode ([102, 57, 66, 52, 99, 97].map asciiUpper) =
        decode [102, 57, 66, 52, 99, 97] ∧
      decode ([102, 57, 66, 52, 99, 97].map asciiLower) =
        decode [102, 57, 66, 52, 99, 97]) :=
  ⟨by decide, decode_case_insensitive [102, 57, 66, 52, 99, 97] (by decide)⟩

/-- C8: Decoding a hex string into a fixed-size `N`-byte array succeeds
exactly when the input is valid hex of length `2N`, yielding the decoded
bytes (the same result as `decode`); when the input's implied length does not
equal `N` the result is `InvalidStringLength` — in particular a 12-character
hex string decodes into a 6-byte array but fails into a 5-byte array. -/
theorem from_hex_array_contract :
    (∀ (N : Nat) (hex : List Nat),
        (∃ res, from_hex_array N hex = .ok res) ↔
          hex.length = 2 * N ∧ ∀ c ∈ hex, decTab c ≠ 255) ∧
    (∀ (N : Nat) (hex : List Nat), hex.length % 2 = 0 → hex.length ≠ 2 * N →
        from_hex_array N hex = .error .InvalidStringLength) ∧
    (∀ (N : Nat) (hex : List Nat), hex.length = 2 * N →
        from_hex_array N hex = decode hex) ∧
    from_hex_array 6 [54, 54, 54, 102, 54, 102, 54, 50, 54, 49, 55, 50] =
      .ok [102, 111, 111, 98, 97, 114] ∧
    from_hex_array 5 [54, 54, 54, 102, 54, 102, 54, 50, 54, 49, 55, 50] =
      .error .InvalidStringLength := by
  refine ⟨?_, ?_, ?_, by decide, by decide⟩
  · intro N hex
    constructor
    · rintro ⟨res, hres⟩
      by_cases he : hex.length % 2 = 0
      · by_cases hl : hex.length / 2 = N
        · have hlen : hex.length = 2 * N := by omega
          rw [from_hex_array, decode_to_slice_eq_loop hex _ he
            (by simp only [List.length_replicate]; omega)] at hres
          obtain ⟨hvalid, _⟩ := decodeLoop_ok_chars _ hex 0 res
            (by simp only [List.length_replicate]; omega) hres
          exact ⟨hlen, hvalid⟩
        · rw [from_hex_array, decode_to_slice, if_neg (by omega),
            if_pos (by simp only [List.length_replicate]; omega)] at hres
          exact absurd hres (by simp)
      · rw [from_hex_array, decode_to_slice, if_pos (by omega)] at hres
        exact absurd hres (by simp)
    · rintro ⟨hlen, hvalid⟩
      rw [from_hex_array, decode_to_slice_eq_loop hex _ (by omega)
        (by simp only [List.length_replicate]; omega)]
      rw [decodeLoop_ok _ hex 0 (by simp only [List.length_replicate]; omega) hvalid]
      exact ⟨decodePairs hex, rfl⟩
  · intro N hex he hne
    rw [from_hex_array, decode_to_slice, if_neg (by omega),
      if_pos (by simp only [List.length_replicate]; omega)]
  · intro N hex hlen
    rw [from_hex_array, decode, if_neg (by omega),
      show hex.length / 2 = N from by omega]

theorem from_hex_array_contract_instance :
    from_hex_array 3 [54, 98, 54, 57, 55, 55] = decode [54, 98, 54, 57, 55, 55] ∧
    from_hex_array 2 [54, 98, 54, 57, 55, 55] = .error .InvalidStringLength :=
  ⟨from_hex_array_contract.2.2.1 3 [54, 98, 54, 57, 55, 55] (by decide),
   from_hex_array_contract.2.1 2 [54, 98, 54, 57, 55, 55] (by decide) (by decide)⟩

/-- C9: For every byte sequence, the lazy iterator encoder produces exactly
two hex characters per input byte, in the same order as the buffer-based
slice encoder with the same case table: collecting the iterator equals
`encode` (resp. `encode_upper`) on the same input. -/
theorem iter_encoder_matches_encode (data : List Nat) (h : ∀ b ∈ data, b < 256) :
    encode_to_iter HEX_CHARS_LOWER data = encode data ∧
    encode_to_iter HEX_CHARS_UPPER data = encode_upper data ∧
    (encode_to_iter HEX_CHARS_LOWER data).length = 2 * data.length := by
  have hl : encode_to_iter HEX_CHARS_LOWER data = encode data := by
    rw [encode_eq, encode_to_iter, bytesToHexChars_none,
      flatMap_iter_eq_enc2 _ _ h]
  refine ⟨hl, ?_, ?_⟩
  · rw [encode_upper_eq, encode_to_iter, bytesToHexChars_none,
      flatMap_iter_eq_enc2 _ _ h]
  · rw [hl, encode_length]

theorem iter_encoder_matches_encode_instance :
    (∀ b ∈ [0, 255, 16], b < 256) ∧
    (encode_to_iter HEX_CHARS_LOWER [0, 255, 16] = encode [0, 255, 16] ∧
      encode_to_iter HEX_CHARS_UPPER [0, 255, 16] = encode_upper [0, 255, 16] ∧
      (encode_to_iter HEX_CHARS_LOWER [0, 255, 16]).length = 2 * [0, 255, 16].length) :=
  ⟨by decide, iter_encoder_matches_encode [0, 255, 16] (by decide)⟩

/-- C10: For every byte string `h`, if `decode h` succeeds with byte sequence
`b`, then `encode b` equals `h` with every ASCII uppercase letter replaced by
its lowercase counterpart: lowercase hex encoding is a left inverse of
decoding up to case normalization. -/
theorem encode_left_inverse_decode (h b : List Nat) (hd : decode h = .ok b) :
    encode b = h.map asciiLower := by
  have he : h.length % 2 = 0 := by
    by_contra ho
    rw [decode, if_pos (by omega)] at hd
    exact absurd hd (by simp)
  rw [decode_eq_loop h he] at hd
  obtain ⟨hvalid, hb⟩ := decodeLoop_ok_chars _ h 0 b
    (by simp only [List.length_replicate]; omega) hd
  rw [hb, encode_eq, flatMap_decodePairs h hvalid he]

theorem encode_left_inverse_decode_instance :
    decode [54, 66] = .ok [107] ∧ encode [107] = [54, 66].map asciiLower :=
  ⟨by decide, encode_left_inverse_decode [54, 66] [107] (by decide)⟩

end RustHex
